import Mathlib

/-!
Verification of the state-machine diagram layout engine of
`src/src/components/FiberStateViewer.tsx` (ottochain-explorer).

The layout pass of the component (the `useMemo` body, `getEdgePath` and the
label expression of the node renderer) is embedded shallowly:

* JS objects (`Record<string, StateDefinition>`, produced by
  `Object.entries`) become association lists `List (String × _)` in key
  insertion order; JS `Map` (insertion-ordered) becomes an association list
  appended at the back on `set` of a fresh key.
* JS numbers become `ℚ`.  All coordinate arithmetic of the source is exact
  dyadic arithmetic (integers, halving of even integers), so `ℚ` agrees with
  IEEE doubles everywhere a theorem below looks; the only non-dyadic literal,
  the `0.3` factor of `controlOffset`, is embedded as `3/10` and no theorem
  depends on its exact value.
* The `while (queue.length > 0)` BFS loop is embedded as a structurally
  recursive function on an explicit step budget `fuel`; the budget
  `bfsMeasure` is proved sufficient (`bfsAux_fuel_add`), which witnesses
  termination of the source loop.
* Fields never read by the layout pass (`StateDefinition.name`,
  `metadata`, `guards`) are omitted from the embedded records.
-/

set_option maxHeartbeats 1000000

namespace OttoExplorer

/-- `Action` of `FiberStateViewer.tsx` (the `guards` field is never read by
the layout pass and is omitted). -/
structure Action where
  eventName : String
  target : String
deriving DecidableEq

/-- `StateDefinition` of `FiberStateViewer.tsx`, restricted to the one field
the layout pass reads; `actions` is optional (`stateDef.actions || []`). -/
structure StateDefinition where
  actions : Option (List Action)
deriving DecidableEq

/-- `StateMachineDefinition` of `FiberStateViewer.tsx`.  `states` is the
association list `Object.entries(definition.states)` in key insertion order;
JS object keys are unique, which theorems assume as an explicit `Nodup`
hypothesis where they need it. -/
structure StateMachineDefinition where
  initialState : String
  states : List (String × StateDefinition)
deriving DecidableEq

/-- `Edge` of `FiberStateViewer.tsx`; `from`/`to` are Lean keywords, renamed
`fromState`/`toState`. -/
structure Edge where
  fromState : String
  toState : String
  label : String
deriving DecidableEq

/-- `NodePosition` of `FiberStateViewer.tsx` (`state`, `x`, `y`). -/
structure NodePosition where
  state : String
  x : ℚ
  y : ℚ
deriving DecidableEq

/-- Result of one SVG path template string of `getEdgePath`: either the
`M … C …` cubic of the self-loop branch or the `M … Q …` quadratic of the
general branch, with the interpolated coordinates. -/
inductive SvgPath where
  | cubic (p0 c1 c2 p1 : ℚ × ℚ)
  | quad (p0 c p1 : ℚ × ℚ)
deriving DecidableEq

/-- `stateNames` of the `useMemo` body: `states.map(([name]) => name)`. -/
def stateNamesOf (d : StateMachineDefinition) : List String :=
  d.states.map Prod.fst

/-- `edgeList` of the `useMemo` body: for every state, for every action,
push `{from, to: action.target, label: action.eventName}` when
`stateNames.includes(action.target)`. -/
def edgeList (d : StateMachineDefinition) : List Edge :=
  let stateNames := stateNamesOf d
  d.states.foldl
    (fun acc p =>
      (p.2.actions.getD []).foldl
        (fun acc2 action =>
          if stateNames.contains action.target then
            acc2 ++ [{ fromState := p.1, toState := action.target,
                       label := action.eventName }]
          else acc2)
        acc)
    []

/-- Step budget for the BFS `while` loop: queue length plus, for every
string that could still be newly visited (a queued name or an edge target
not yet in `visited`), one unit per push it can cause plus one for its own
dequeue.  Every loop iteration strictly decreases this quantity
(`bfsMeasure_lt_skip` / `bfsMeasure_lt_visit` below). -/
def bfsMeasure (edges : List Edge) (queue : List (String × Nat))
    (visited : List String) : Nat :=
  queue.length + (1 + edges.length) *
    (((queue.map Prod.fst ++ edges.map Edge.toState).toFinset \
        visited.toFinset).card)

/-- The BFS `while (queue.length > 0)` loop of the `useMemo` body, with an
explicit step budget.  One iteration: `shift()` the head; skip if visited;
otherwise mark visited, record the depth, and push every outgoing edge's
target (`edgeList.filter(e => e.from === state)`) that is not yet visited,
with depth + 1.  `depths` is the insertion-ordered `Map`. -/
def bfsAux (edges : List Edge) :
    Nat → List (String × Nat) → List String → List (String × Nat) →
      List (String × Nat)
  | 0, _, _, depths => depths
  | fuel + 1, queue, visited, depths =>
    match queue with
    | [] => depths
    | (state, depth) :: rest =>
      if visited.contains state then
        bfsAux edges fuel rest visited depths
      else
        let visited2 := state :: visited
        let depths2 := depths ++ [(state, depth)]
        let stateEdges := edges.filter (fun e => e.fromState == state)
        let pushes :=
          (stateEdges.filter (fun e => !(visited2.contains e.toState))).map
            (fun e => (e.toState, depth + 1))
        bfsAux edges fuel (rest ++ pushes) visited2 depths2

/-- Budget for the whole loop, from its initial configuration. -/
def bfsFuel (d : StateMachineDefinition) : Nat :=
  bfsMeasure (edgeList d) [(d.initialState, 0)] []

/-- The `depths` map right after the BFS loop: the queue starts as
`[{state: definition.initialState, depth: 0}]`, `visited` and `depths`
start empty. -/
def bfsDepths (d : StateMachineDefinition) : List (String × Nat) :=
  bfsAux (edgeList d) (bfsFuel d) [(d.initialState, 0)] [] []

/-- The "any unvisited states get max depth + 1" pass:
`stateNames.forEach(state => { if (!depths.has(state))
depths.set(state, (Math.max(...depths.values()) || 0) + 1) })`.
`Math.max` over the (always nonempty here, values ≥ 0) list is embedded as
`foldr max 0`; `|| 0` is the identity on naturals. -/
def fillDepths (stateNames : List String) (depths : List (String × Nat)) :
    List (String × Nat) :=
  stateNames.foldl
    (fun acc s =>
      if (acc.map Prod.fst).contains s then acc
      else acc ++ [(s, (acc.map Prod.snd).foldr max 0 + 1)])
    depths

/-- The complete depth map of the layout pass. -/
def finalDepths (d : StateMachineDefinition) : List (String × Nat) :=
  fillDepths (stateNamesOf d) (bfsDepths d)

/-- One step of `depthGroups` construction:
`if (!depthGroups.has(depth)) depthGroups.set(depth, []);
depthGroups.get(depth)!.push(state)` on an insertion-ordered map whose keys
are unique (first matching entry is the only one). -/
def addToGroup : List (Nat × List String) → Nat → String →
    List (Nat × List String)
  | [], depth, s => [(depth, [s])]
  | (k, ms) :: rest, depth, s =>
    if k = depth then (k, ms ++ [s]) :: rest
    else (k, ms) :: addToGroup rest depth s

/-- `depthGroups`: `depths.forEach((depth, state) => …)` in map insertion
order, grouping state names by assigned depth. -/
def depthGroupsOf (depths : List (String × Nat)) : List (Nat × List String) :=
  depths.foldl (fun acc p => addToGroup acc p.2 p.1) []

/-- Layout constant `nodeWidth = 120`. -/
def nodeWidth : ℚ := 120

/-- Layout constant `nodeHeight = 50`. -/
def nodeHeight : ℚ := 50

/-- Layout constant `horizontalGap = 180`. -/
def horizontalGap : ℚ := 180

/-- Layout constant `verticalGap = 80`. -/
def verticalGap : ℚ := 80

/-- The `y` expression of the inner `statesAtDepth.forEach((state, idx))`
with `totalHeight = statesAtDepth.length * (nodeHeight + verticalGap) -
verticalGap` inlined:
`60 + idx * (nodeHeight + verticalGap) + (300 - totalHeight) / 2`. -/
def colY (len idx : Nat) : ℚ :=
  60 + (idx : ℚ) * (nodeHeight + verticalGap) +
    (300 - ((len : ℚ) * (nodeHeight + verticalGap) - verticalGap)) / 2

/-- The inner `statesAtDepth.forEach((state, idx) => nodePositions.push(…))`
loop of one depth group: `x = 80 + depth * horizontalGap`, `y = colY`. -/
def columnNodes (depth len : Nat) : Nat → List String → List NodePosition
  | _, [] => []
  | idx, s :: rest =>
    { state := s, x := 80 + (depth : ℚ) * horizontalGap, y := colY len idx } ::
      columnNodes depth len (idx + 1) rest

/-- `nodePositions`: the two nested `forEach` loops over `depthGroups`. -/
def nodePositionsOf (d : StateMachineDefinition) : List NodePosition :=
  (depthGroupsOf (finalDepths d)).foldl
    (fun acc g => acc ++ columnNodes g.1 g.2.length 0 g.2) []

/-- `maxDepth = Math.max(...depthGroups.keys())` (the key list is nonempty
in every run of the source, and all keys are ≥ 0, so `foldr max 0` agrees
with `Math.max`). -/
def maxDepthOf (d : StateMachineDefinition) : Nat :=
  ((depthGroupsOf (finalDepths d)).map Prod.fst).foldr max 0

/-- The largest depth-group size, the `Math.max(...map(g => g.length))` of
the `svgHeight` expression. -/
def maxColLenOf (d : StateMachineDefinition) : Nat :=
  ((depthGroupsOf (finalDepths d)).map (fun g => g.2.length)).foldr max 0

/-- `svgWidth = Math.max(400, 160 + (maxDepth + 1) * horizontalGap)`. -/
def svgWidth (d : StateMachineDefinition) : ℚ :=
  max 400 (160 + ((maxDepthOf d : ℚ) + 1) * horizontalGap)

/-- `svgHeight = Math.max(300, maxColLen * (nodeHeight + verticalGap) + 100)`. -/
def svgHeight (d : StateMachineDefinition) : ℚ :=
  max 300 ((maxColLenOf d : ℚ) * (nodeHeight + verticalGap) + 100)

/-- The record returned by the `useMemo` body:
`{nodes: nodePositions, edges: edgeList, width: svgWidth, height: svgHeight}`. -/
structure LayoutResult where
  nodes : List NodePosition
  edges : List Edge
  width : ℚ
  height : ℚ
deriving DecidableEq

/-- The whole layout pass. -/
def layout (d : StateMachineDefinition) : LayoutResult :=
  { nodes := nodePositionsOf d, edges := edgeList d,
    width := svgWidth d, height := svgHeight d }

/-- `const offset = (edgeIndex - (totalEdges - 1) / 2) * 15` of
`getEdgePath`. -/
def pathOffset (edgeIndex totalEdges : Nat) : ℚ :=
  ((edgeIndex : ℚ) - ((totalEdges : ℚ) - 1) / 2) * 15

/-- `getEdgePath(from, to, edgeIndex, totalEdges)`: the self-loop branch
returns the fixed `M … C …` cubic; the general branch returns the
`M … Q …` quadratic with the parallel-edge offset applied to the midpoint. -/
def getEdgePath (p q : NodePosition) (edgeIndex totalEdges : Nat) : SvgPath :=
  let fromX := p.x + 60
  let fromY := p.y + 25
  let toX := q.x
  let toY := q.y + 25
  if p.state == q.state then
    SvgPath.cubic (p.x + 60, p.y) (p.x + 100, p.y - 40)
      (p.x + 100, p.y + 90) (p.x + 60, p.y + 50)
  else
    let offset := pathOffset edgeIndex totalEdges
    let midX := (fromX + toX) / 2
    let midY := (fromY + toY) / 2 + offset
    let controlOffset := |toX - fromX| * (3 / 10)
    SvgPath.quad (fromX, fromY)
      (midX, midY + (if 0 < offset then controlOffset else -controlOffset))
      (toX, toY)

/-- The `sameEdges` filter of the edge render loop: all edges whose
unordered endpoint pair matches the given edge's. -/
def sameEdges (edges : List Edge) (edge : Edge) : List Edge :=
  edges.filter
    (fun e =>
      (e.fromState == edge.fromState && e.toState == edge.toState) ||
        (e.fromState == edge.toState && e.toState == edge.fromState))

/-- The node-label expression of the renderer, at the level of UTF-16-ish
character lists:
`node.state.length > 14 ? node.state.slice(0, 12) + '...' : node.state`. -/
def renderLabel (s : List Char) : List Char :=
  if 14 < s.length then s.take 12 ++ ['.', '.', '.'] else s

/-! ## Specification-side notions

The definitions below are written from the spec's words, to be compared
with the embedded code: `ReachN` is "reachable via `n` edge-hops",
`specValidEdges` is the Graph Builder contract of §4.1, and `numberFrom`
expresses "consecutive depths starting at `m`". -/

/-- There is a walk of exactly `n` edge-hops from `init` to the given state
along the (directed) edge list. -/
inductive ReachN (edges : List Edge) (init : String) : Nat → String → Prop
  | zero : ReachN edges init 0 init
  | succ {n : Nat} {s : String} {e : Edge} :
      ReachN edges init n s → e ∈ edges → e.fromState = s →
      ReachN edges init (n + 1) e.toState

/-- Spec §4.1: "For every `action` in `descriptor.actions`, emit an edge
`{from: stateName, to: action.target, label: action.eventName}` only if
`action.target` is a key in `states`; silently drop otherwise" — stated as
a filter-then-map over the declaration order. -/
def specValidEdges (d : StateMachineDefinition) : List Edge :=
  d.states.flatMap
    (fun p =>
      ((p.2.actions.getD []).filter
          (fun a => (stateNamesOf d).contains a.target)).map
        (fun a => { fromState := p.1, toState := a.target,
                    label := a.eventName }))

/-- `numberFrom m [s₀, s₁, …]` = `[(s₀, m), (s₁, m + 1), …]`: consecutive
numbering, used to state what the unvisited-fill pass actually assigns. -/
def numberFrom (m : Nat) : List String → List (String × Nat)
  | [] => []
  | s :: rest => (s, m) :: numberFrom (m + 1) rest

/-! ## Graph Builder: `edgeList` refines the spec's filter-and-map -/

lemma foldl_push_filter {α β : Type} (P : α → Bool) (mk : α → β) :
    ∀ (xs : List α) (acc : List β),
      xs.foldl (fun acc2 a => if P a then acc2 ++ [mk a] else acc2) acc
        = acc ++ (xs.filter P).map mk := by
  intro xs
  induction xs with
  | nil => intro acc; simp
  | cons a rest ih =>
    intro acc
    cases hP : P a <;> simp [List.foldl_cons, hP, ih, List.filter_cons]

lemma contains_iff_mem (l : List String) (s : String) :
    l.contains s = true ↔ s ∈ l :=
  List.elem_iff

lemma foldl_flatMap_of_step {α β : Type}
    (g : List β → α → List β) (f : α → List β)
    (hg : ∀ acc p, g acc p = acc ++ f p) :
    ∀ (xs : List α) (acc : List β),
      xs.foldl g acc = acc ++ xs.flatMap f := by
  intro xs
  induction xs with
  | nil => intro acc; simp
  | cons p rest ih => intro acc; simp [List.foldl_cons, hg, ih]

lemma edgeList_eq_specValidEdges (d : StateMachineDefinition) :
    edgeList d = specValidEdges d := by
  simp only [edgeList, specValidEdges]
  exact foldl_flatMap_of_step _ _
    (fun acc p =>
      foldl_push_filter (fun a => (stateNamesOf d).contains a.target)
        (fun a => ({ fromState := p.1, toState := a.target,
                     label := a.eventName } : Edge))
        (p.2.actions.getD []) acc)
    d.states []

/-- Every emitted edge has both endpoints among the declared state names. -/
lemma edgeList_endpoints_mem (d : StateMachineDefinition) :
    ∀ e ∈ edgeList d,
      e.fromState ∈ stateNamesOf d ∧ e.toState ∈ stateNamesOf d := by
  intro e he
  rw [edgeList_eq_specValidEdges] at he
  obtain ⟨p, hp, he2⟩ := List.mem_flatMap.mp he
  obtain ⟨a, ha, rfl⟩ := List.mem_map.mp he2
  obtain ⟨_, hval⟩ := List.mem_filter.mp ha
  exact ⟨List.mem_map.mpr ⟨p, hp, rfl⟩, (contains_iff_mem _ _).mp hval⟩

/-- Claim C5: the emitted edges are in one-to-one correspondence with the
valid actions: an action of state `stateName` yields the edge
`{from: stateName, to: action.target, label: action.eventName}` if and only
if `action.target` is a key of `states` (invalid targets are dropped without
an exception, and no deduplication happens) — the code's `edgeList` equals
the spec's filter-then-map, order, multiplicity and labels included. -/
theorem claim_C5_edges_are_valid_actions (d : StateMachineDefinition) :
    edgeList d = specValidEdges d :=
  edgeList_eq_specValidEdges d

/-- Claim C10: the rendered label is the state name unchanged when the name
has at most 14 characters, and otherwise is exactly the first 12 characters
followed by `"..."`. -/
theorem claim_C10_label_truncation (s : List Char) :
    (s.length ≤ 14 → renderLabel s = s) ∧
      (14 < s.length →
        (renderLabel s).take 12 = s.take 12 ∧
          (renderLabel s).drop 12 = ['.', '.', '.'] ∧
          (renderLabel s).length = 15) := by
  constructor
  · intro h
    simp [renderLabel, Nat.not_lt.mpr h]
  · intro h
    have h12 : (s.take 12).length = 12 := by
      rw [List.length_take]; omega
    refine ⟨?_, ?_, ?_⟩
    · rw [renderLabel, if_pos h, List.take_append_of_le_length (by omega),
        List.take_take]
      simp
    · rw [renderLabel, if_pos h, List.drop_append_of_le_length (by omega),
        List.drop_eq_nil_of_le (by omega), List.nil_append]
    · rw [renderLabel, if_pos h, List.length_append, h12]
      rfl

/-- Witness for C10 at the concrete names `"abc"` (kept as is) and
`"averylongstatename"` (truncated to 12 characters plus dots). -/
theorem claim_C10_label_truncation_witness :
    renderLabel "abc".data = "abc".data ∧
      (renderLabel "averylongstatename".data).drop 12 = ['.', '.', '.'] := by
  refine ⟨(claim_C10_label_truncation "abc".data).1 (by decide), ?_⟩
  exact (((claim_C10_label_truncation "averylongstatename".data).2
    (by decide)).2).1

/-! ## Edge Router: parallel-edge offsets -/

/-- The lateral offsets the render loop computes for the parallel-edge group
of `edge`: each member's `edgeIndex` is `sameEdges.indexOf(edge)` and its
`totalEdges` is `sameEdges.length`, exactly as in the edge render loop. -/
def groupOffsets (edges : List Edge) (edge : Edge) : List ℚ :=
  (sameEdges edges edge).map
    (fun e2 => pathOffset ((sameEdges edges edge).indexOf e2)
      (sameEdges edges edge).length)

lemma map_indexOf_range {α : Type} [DecidableEq α] :
    ∀ (l : List α), l.Nodup → l.map (fun a => l.indexOf a) = List.range l.length
  | [], _ => rfl
  | x :: xs, h => by
    have hx : x ∉ xs := (List.nodup_cons.mp h).1
    have hxs : xs.Nodup := (List.nodup_cons.mp h).2
    simp only [List.map_cons, List.indexOf_cons_self, List.length_cons,
      List.range_succ_eq_map]
    congr 1
    have hstep : ∀ a ∈ xs, (x :: xs).indexOf a = Nat.succ (xs.indexOf a) :=
      fun a ha => List.indexOf_cons_ne xs (fun hxa => hx (hxa ▸ ha))
    rw [List.map_congr_left hstep, ← map_indexOf_range xs hxs, List.map_map]
    rfl

lemma pathOffset_injective (k : Nat) :
    Function.Injective (fun i : Nat => pathOffset i k) := by
  intro i j h
  simp only [pathOffset] at h
  have h2 := mul_right_cancel₀ (by norm_num : (15 : ℚ) ≠ 0) h
  have h3 : (i : ℚ) = j := by linarith
  exact_mod_cast h3

lemma pathOffset_reverse {i k : Nat} (h : i < k) :
    pathOffset (k - 1 - i) k = -pathOffset i k := by
  have h1 : ((k - 1 - i : Nat) : ℚ) = (k : ℚ) - 1 - i := by
    rw [Nat.cast_sub (by omega : i ≤ k - 1), Nat.cast_sub (by omega : 1 ≤ k)]
    norm_num
  simp only [pathOffset, h1]
  ring

lemma sameEdges_mem_eq (edges : List Edge) {e e2 : Edge}
    (h : e2 ∈ sameEdges edges e) :
    sameEdges edges e2 = sameEdges edges e := by
  have hp := (List.mem_filter.mp h).2
  simp only [Bool.or_eq_true, Bool.and_eq_true, beq_iff_eq] at hp
  unfold sameEdges
  rcases hp with ⟨h1, h2⟩ | ⟨h1, h2⟩
  · rw [h1, h2]
  · rw [h1, h2]
    refine List.filter_congr ?_
    intro x hx
    exact Bool.or_comm _ _

lemma groupOffsets_eq_range (edges : List Edge) (e : Edge)
    (h : (sameEdges edges e).Nodup) :
    groupOffsets edges e =
      (List.range (sameEdges edges e).length).map
        (fun i => pathOffset i (sameEdges edges e).length) := by
  unfold groupOffsets
  show (sameEdges edges e).map
      ((fun i => pathOffset i (sameEdges edges e).length) ∘
        (fun e2 => (sameEdges edges e).indexOf e2)) = _
  rw [← List.map_map, map_indexOf_range _ h]

/-- Claim C6: for the group of `k` edges sharing an unordered endpoint pair
(`A→B` and `B→A` grouped together), the render loop's offsets
`(i − (k−1)/2) × 15` form a set that is symmetric about zero and has exactly
`k` distinct values; every member of the group computes the same group, so
the corridor is well defined. -/
theorem claim_C6_parallel_offset_symmetry (edges : List Edge) (e : Edge)
    (hnd : edges.Nodup) (_he : e ∈ edges) :
    (groupOffsets edges e).length = (sameEdges edges e).length ∧
      (groupOffsets edges e).Nodup ∧
      (∀ x : ℚ, x ∈ groupOffsets edges e ↔ -x ∈ groupOffsets edges e) ∧
      (∀ e2 ∈ sameEdges edges e, sameEdges edges e2 = sameEdges edges e) ∧
      (∀ e2 ∈ edges, e2.fromState = e.toState → e2.toState = e.fromState →
        e2 ∈ sameEdges edges e) := by
  have hg : (sameEdges edges e).Nodup := hnd.filter _
  have hr := groupOffsets_eq_range edges e hg
  have hsym : ∀ x : ℚ, x ∈ groupOffsets edges e → -x ∈ groupOffsets edges e := by
    intro x hx
    rw [hr] at hx ⊢
    obtain ⟨i, hi, rfl⟩ := List.mem_map.mp hx
    rw [List.mem_range] at hi
    refine List.mem_map.mpr ⟨(sameEdges edges e).length - 1 - i,
      List.mem_range.mpr (by omega), ?_⟩
    exact pathOffset_reverse hi
  refine ⟨by simp [groupOffsets], ?_, ?_, ?_, ?_⟩
  · rw [hr]
    exact (List.nodup_range _).map (pathOffset_injective _)
  · intro x
    exact ⟨hsym x, fun hx => by simpa using hsym (-x) hx⟩
  · intro e2 h2
    exact sameEdges_mem_eq edges h2
  · intro e2 h2 hf ht
    refine List.mem_filter.mpr ⟨h2, ?_⟩
    simp [hf, ht]

/-- Witness for C6 on the concrete group `{A→B (x), A→B (y), B→A (z)}`:
three distinct, zero-symmetric offsets. -/
theorem claim_C6_parallel_offset_symmetry_witness :
    (groupOffsets
        [⟨"A", "B", "x"⟩, ⟨"A", "B", "y"⟩, ⟨"B", "A", "z"⟩]
        ⟨"A", "B", "x"⟩).Nodup ∧
      (∀ x : ℚ,
        x ∈ groupOffsets
            [⟨"A", "B", "x"⟩, ⟨"A", "B", "y"⟩, ⟨"B", "A", "z"⟩]
            ⟨"A", "B", "x"⟩ ↔
          -x ∈ groupOffsets
            [⟨"A", "B", "x"⟩, ⟨"A", "B", "y"⟩, ⟨"B", "A", "z"⟩]
            ⟨"A", "B", "x"⟩) :=
  ⟨(claim_C6_parallel_offset_symmetry _ _ (by decide) (by decide)).2.1,
    (claim_C6_parallel_offset_symmetry _ _ (by decide) (by decide)).2.2.1⟩

/-! ## Edge Router: self-loops and anchors -/

/-- Claim C9: a self-loop is routed as the fixed cubic anchored to the node
(independent of `edgeIndex`/`totalEdges`, hence of any other edge), and its
path is never equal to the path of any non-loop edge (which is a
quadratic). -/
theorem claim_C9_self_loop_distinct (r p q : NodePosition) (i k j l : Nat)
    (hne : p.state ≠ q.state) :
    getEdgePath r r i k =
        SvgPath.cubic (r.x + 60, r.y) (r.x + 100, r.y - 40)
          (r.x + 100, r.y + 90) (r.x + 60, r.y + 50) ∧
      getEdgePath r r i k = getEdgePath r r j l ∧
      getEdgePath r r i k ≠ getEdgePath p q j l := by
  have hr : (r.state == r.state) = true := beq_self_eq_true _
  have hpq : (p.state == q.state) = false := by simp [hne]
  refine ⟨?_, ?_, ?_⟩
  · simp [getEdgePath, hr]
  · simp [getEdgePath, hr]
  · simp [getEdgePath, hr, hpq]

/-- Witness for C9 at the laid-out positions of the two-state chain. -/
theorem claim_C9_self_loop_distinct_witness :
    getEdgePath ⟨"A", 80, 185⟩ ⟨"A", 80, 185⟩ 0 2 =
        getEdgePath ⟨"A", 80, 185⟩ ⟨"A", 80, 185⟩ 1 5 ∧
      getEdgePath ⟨"A", 80, 185⟩ ⟨"A", 80, 185⟩ 0 2 ≠
        getEdgePath ⟨"A", 80, 185⟩ ⟨"B", 260, 185⟩ 1 5 :=
  ⟨(claim_C9_self_loop_distinct ⟨"A", 80, 185⟩ ⟨"A", 80, 185⟩
      ⟨"B", 260, 185⟩ 0 2 1 5 (by decide)).2.1,
    (claim_C9_self_loop_distinct ⟨"A", 80, 185⟩ ⟨"A", 80, 185⟩
      ⟨"B", 260, 185⟩ 0 2 1 5 (by decide)).2.2⟩

/-- The two-state chain `{initialState: "A", states: {A: {actions: [go→B]},
B: {actions: []}}}` — scenario 1 of the spec. -/
def chainAB : StateMachineDefinition :=
  ⟨"A", [("A", ⟨some [⟨"go", "B"⟩]⟩), ("B", ⟨some []⟩)]⟩

/-- Claim C7, checked at the laid-out nodes of `chainAB` (`A` at `(80,185)`,
`B` at `(260,185)`, both actual members of `nodePositionsOf chainAB`): the
routed quadratic starts at `(140, 210)`, i.e. at `from.x + 60` — the
horizontal center of the 120-wide node — whereas the right-center anchor the
claim (and the code's own `// Right side of from node` comment) describes
would be `from.x + nodeWidth = 200`.  The destination anchor `(260, 210)`
is the left-center, as claimed. -/
theorem claim_C7_source_anchor_is_center_not_right :
    (⟨"A", (80 : ℚ), 185⟩ : NodePosition) ∈ nodePositionsOf chainAB ∧
      (⟨"B", (260 : ℚ), 185⟩ : NodePosition) ∈ nodePositionsOf chainAB ∧
      getEdgePath ⟨"A", 80, 185⟩ ⟨"B", 260, 185⟩ 0 1 =
        SvgPath.quad (140, 210) (200, 174) (260, 210) ∧
      (140 : ℚ) = 80 + 60 ∧
      (80 + 60 : ℚ) ≠ 80 + nodeWidth := by
  have h : depthGroupsOf (finalDepths chainAB) = [(0, ["A"]), (1, ["B"])] := by
    decide
  refine ⟨?_, ?_, ?_, by norm_num, by rw [nodeWidth]; norm_num⟩
  · simp only [nodePositionsOf, h, List.foldl, columnNodes, colY, nodeHeight,
      verticalGap, horizontalGap]
    norm_num
    rfl
  · simp only [nodePositionsOf, h, List.foldl, columnNodes, colY, nodeHeight,
      verticalGap, horizontalGap]
    norm_num
  · have hAB : (("A" : String) == "B") = false := by decide
    simp only [getEdgePath, pathOffset, hAB, Bool.false_eq_true, if_false]
    norm_num

/-! ## The BFS loop: termination measure -/

/-- Skipping an already-visited head strictly decreases the measure. -/
lemma bfsMeasure_lt_skip (edges : List Edge) (s : String) (d : Nat)
    (rest : List (String × Nat)) (visited : List String) :
    bfsMeasure edges rest visited <
      bfsMeasure edges ((s, d) :: rest) visited := by
  unfold bfsMeasure
  have hsub : (rest.map Prod.fst ++ edges.map Edge.toState).toFinset \
        visited.toFinset ⊆
      (((s, d) :: rest).map Prod.fst ++ edges.map Edge.toState).toFinset \
        visited.toFinset := by
    refine Finset.sdiff_subset_sdiff ?_ (le_refl _)
    intro x hx
    rw [List.mem_toFinset] at hx ⊢
    rw [List.mem_append] at hx ⊢
    rcases hx with hx | hx
    · exact Or.inl (by simp [hx])
    · exact Or.inr hx
  have hmul := Nat.mul_le_mul_left (1 + edges.length) (Finset.card_le_card hsub)
  simp only [List.length_cons]
  omega

/-- Visiting a fresh head strictly decreases the measure, whatever the
pushed targets are, as long as they are edge targets and at most one push
per edge happens. -/
lemma bfsMeasure_lt_visit (edges : List Edge) (s : String) (d : Nat)
    (rest : List (String × Nat)) (visited : List String)
    (pushes : List (String × Nat))
    (hlen : pushes.length ≤ edges.length)
    (hpush : ∀ p ∈ pushes, p.1 ∈ edges.map Edge.toState)
    (hnv : s ∉ visited) :
    bfsMeasure edges (rest ++ pushes) (s :: visited) <
      bfsMeasure edges ((s, d) :: rest) visited := by
  unfold bfsMeasure
  set T := edges.map Edge.toState with hT
  set bigSet := (((s, d) :: rest).map Prod.fst ++ T).toFinset \
    visited.toFinset with hbig
  have hmem : s ∈ bigSet := by
    rw [hbig, Finset.mem_sdiff, List.mem_toFinset, List.mem_append]
    exact ⟨Or.inl (by simp), by rwa [List.mem_toFinset]⟩
  have hsub : ((rest ++ pushes).map Prod.fst ++ T).toFinset \
      (s :: visited).toFinset ⊆ bigSet.erase s := by
    intro x hx
    rw [Finset.mem_sdiff, List.mem_toFinset, List.mem_append] at hx
    obtain ⟨hx1, hx2⟩ := hx
    rw [List.mem_toFinset, List.mem_cons] at hx2
    push_neg at hx2
    rw [Finset.mem_erase, hbig, Finset.mem_sdiff, List.mem_toFinset,
      List.mem_append]
    refine ⟨hx2.1, ?_, by rw [List.mem_toFinset]; exact hx2.2⟩
    rcases hx1 with hx1 | hx1
    · rw [List.map_append, List.mem_append] at hx1
      rcases hx1 with hx1 | hx1
      · exact Or.inl (by simp [List.mem_map] at hx1 ⊢; tauto)
      · obtain ⟨p, hp, hpe⟩ := List.mem_map.mp hx1
        exact Or.inr (hpe ▸ hpush p hp)
    · exact Or.inr hx1
  have hcard : (((rest ++ pushes).map Prod.fst ++ T).toFinset \
      (s :: visited).toFinset).card ≤ bigSet.card - 1 := by
    calc (((rest ++ pushes).map Prod.fst ++ T).toFinset \
        (s :: visited).toFinset).card
        ≤ (bigSet.erase s).card := Finset.card_le_card hsub
      _ = bigSet.card - 1 := Finset.card_erase_of_mem hmem
  have hpos : 1 ≤ bigSet.card := Finset.card_pos.mpr ⟨s, hmem⟩
  obtain ⟨c, hc⟩ := Nat.exists_eq_add_of_le hpos
  rw [hc] at hcard ⊢
  have hmul : (1 + edges.length) *
      (((rest ++ pushes).map Prod.fst ++ T).toFinset \
        (s :: visited).toFinset).card ≤ (1 + edges.length) * c :=
    Nat.mul_le_mul_left _ (by omega)
  have hql : (rest ++ pushes).length ≤ rest.length + edges.length := by
    rw [List.length_append]; omega
  have hexp : (1 + edges.length) * (1 + c) =
      (1 + edges.length) * c + (1 + edges.length) := by ring
  simp only [List.length_cons]
  omega

/-! ## The BFS loop: invariants -/

lemma contains_eq_false_iff (l : List String) (s : String) :
    l.contains s = false ↔ s ∉ l := by
  constructor
  · intro h hm
    rw [(contains_iff_mem l s).mpr hm] at h
    exact Bool.true_eq_false.mp h
  · intro h
    cases hc : l.contains s
    · rfl
    · exact absurd ((contains_iff_mem l s).mp hc) h

/-- Membership in the list of states pushed when visiting `s` at depth `d`. -/
lemma mem_pushes_iff (edges : List Edge) (s : String) (d : Nat)
    (visited2 : List String) (p : String × Nat) :
    p ∈ ((edges.filter (fun e => e.fromState == s)).filter
        (fun e => !(visited2.contains e.toState))).map
      (fun e => (e.toState, d + 1)) ↔
    ∃ e ∈ edges, e.fromState = s ∧ e.toState ∉ visited2 ∧
      p = (e.toState, d + 1) := by
  constructor
  · intro hp
    obtain ⟨e, he, hpe⟩ := List.mem_map.mp hp
    obtain ⟨he2, hnv⟩ := List.mem_filter.mp he
    obtain ⟨he3, hfrom⟩ := List.mem_filter.mp he2
    refine ⟨e, he3, beq_iff_eq.mp hfrom, ?_, hpe.symm⟩
    rw [Bool.not_eq_true', contains_eq_false_iff] at hnv
    exact hnv
  · rintro ⟨e, he, hfrom, hnv, rfl⟩
    refine List.mem_map.mpr ⟨e, ?_, rfl⟩
    refine List.mem_filter.mpr ⟨List.mem_filter.mpr ⟨he, beq_iff_eq.mpr hfrom⟩, ?_⟩
    rw [Bool.not_eq_true', contains_eq_false_iff]
    exact hnv

lemma pushes_length_le (edges : List Edge) (s : String) (d : Nat)
    (visited2 : List String) :
    (((edges.filter (fun e => e.fromState == s)).filter
        (fun e => !(visited2.contains e.toState))).map
      (fun e => (e.toState, d + 1))).length ≤ edges.length := by
  rw [List.length_map]
  exact le_trans (List.length_filter_le _ _) (List.length_filter_le _ _)

lemma pushes_scope (edges : List Edge) (s : String) (d : Nat)
    (visited2 : List String) :
    ∀ p ∈ ((edges.filter (fun e => e.fromState == s)).filter
        (fun e => !(visited2.contains e.toState))).map
      (fun e => (e.toState, d + 1)),
      p.1 ∈ edges.map Edge.toState := by
  intro p hp
  obtain ⟨e, he, _, _, rfl⟩ := (mem_pushes_iff edges s d visited2 p).mp hp
  exact List.mem_map.mpr ⟨e, he, rfl⟩

lemma pairwise_of_const_snd (c : Nat) :
    ∀ (l : List (String × Nat)), (∀ p ∈ l, p.2 = c) →
      l.Pairwise (fun p q : String × Nat => p.2 ≤ q.2)
  | [], _ => List.Pairwise.nil
  | p :: rest, h =>
    List.Pairwise.cons
      (fun q hq => by rw [h p (List.mem_cons_self p rest),
        h q (List.mem_cons_of_mem p hq)])
      (pairwise_of_const_snd c rest (fun q hq => h q (List.mem_cons_of_mem p hq)))

/-- Loop invariant of the BFS while loop, tying together the visited set,
the recorded depths and the queue. -/
structure BfsInv (edges : List Edge) (init : String)
    (queue : List (String × Nat)) (visited : List String)
    (depths : List (String × Nat)) : Prop where
  vis_iff : ∀ s : String, s ∈ visited ↔ s ∈ depths.map Prod.fst
  keys_nodup : (depths.map Prod.fst).Nodup
  depths_sound : ∀ p ∈ depths, ReachN edges init p.2 p.1
  queue_sound : ∀ p ∈ queue, ReachN edges init p.2 p.1
  closed : ∀ p ∈ depths, ∀ e ∈ edges, e.fromState = p.1 →
      (∃ q ∈ depths, q.1 = e.toState ∧ q.2 ≤ p.2 + 1) ∨
        (∃ q ∈ queue, q.1 = e.toState ∧ q.2 ≤ p.2 + 1)
  depths_le_queue : ∀ p ∈ depths, ∀ q ∈ queue, p.2 ≤ q.2
  queue_sorted : queue.Pairwise (fun p q : String × Nat => p.2 ≤ q.2)
  queue_window : ∀ p ∈ queue, ∀ q ∈ queue, p.2 ≤ q.2 + 1
  init_mem : (init, 0) ∈ depths ∨ (init, 0) ∈ queue
  depths_scope : ∀ p ∈ depths, p.1 = init ∨ p.1 ∈ edges.map Edge.toState
  queue_scope : ∀ p ∈ queue, p.1 = init ∨ p.1 ∈ edges.map Edge.toState

/-- What holds of the recorded depths when the queue has drained. -/
structure BfsPost (edges : List Edge) (init : String)
    (D : List (String × Nat)) : Prop where
  keys_nodup : (D.map Prod.fst).Nodup
  sound : ∀ p ∈ D, ReachN edges init p.2 p.1
  closed : ∀ p ∈ D, ∀ e ∈ edges, e.fromState = p.1 →
      ∃ q ∈ D, q.1 = e.toState ∧ q.2 ≤ p.2 + 1
  init_mem : (init, 0) ∈ D
  scope : ∀ p ∈ D, p.1 = init ∨ p.1 ∈ edges.map Edge.toState

lemma BfsInv.toPost {edges : List Edge} {init : String}
    {visited : List String} {depths : List (String × Nat)}
    (h : BfsInv edges init [] visited depths) :
    BfsPost edges init depths := by
  refine ⟨h.keys_nodup, h.depths_sound, ?_, ?_, h.depths_scope⟩
  · intro p hp e he hf
    rcases h.closed p hp e he hf with hl | ⟨q, hq, _⟩
    · exact hl
    · exact absurd hq (List.not_mem_nil _)
  · rcases h.init_mem with h1 | h1
    · exact h1
    · exact absurd h1 (List.not_mem_nil _)

/-- The head of the queue was already visited: dropping it preserves the
invariant. -/
lemma BfsInv.skip {edges : List Edge} {init s : String} {d : Nat}
    {rest : List (String × Nat)} {visited : List String}
    {depths : List (String × Nat)}
    (h : BfsInv edges init ((s, d) :: rest) visited depths)
    (hv : s ∈ visited) :
    BfsInv edges init rest visited depths := by
  obtain ⟨p0, hp0, hp0s⟩ : ∃ p ∈ depths, p.1 = s := by
    obtain ⟨p, hp, hps⟩ := List.mem_map.mp ((h.vis_iff s).mp hv)
    exact ⟨p, hp, hps⟩
  have hp0le : p0.2 ≤ d :=
    h.depths_le_queue p0 hp0 (s, d) (List.mem_cons_self _ _)
  refine ⟨h.vis_iff, h.keys_nodup, h.depths_sound,
    fun p hp => h.queue_sound p (List.mem_cons_of_mem _ hp), ?_,
    fun p hp q hq => h.depths_le_queue p hp q (List.mem_cons_of_mem _ hq),
    h.queue_sorted.of_cons,
    fun p hp q hq => h.queue_window p (List.mem_cons_of_mem _ hp) q
      (List.mem_cons_of_mem _ hq),
    ?_, h.depths_scope,
    fun p hp => h.queue_scope p (List.mem_cons_of_mem _ hp)⟩
  · intro p hp e he hf
    rcases h.closed p hp e he hf with hl | ⟨q, hq, hq1, hq2⟩
    · exact Or.inl hl
    · rcases List.mem_cons.mp hq with rfl | hq'
      · exact Or.inl ⟨p0, hp0, by rw [hp0s]; exact hq1,
          le_trans hp0le hq2⟩
      · exact Or.inr ⟨q, hq', hq1, hq2⟩
  · rcases h.init_mem with h1 | h1
    · exact Or.inl h1
    · rcases List.mem_cons.mp h1 with heq | h1'
      · left
        have hs : s = init := by
          have := congrArg Prod.fst heq; simpa using this.symm
        have hd : d = 0 := by
          have := congrArg Prod.snd heq; simpa using this.symm
        subst hs; subst hd
        obtain ⟨a, b⟩ := p0
        simp only at hp0s hp0le
        subst hp0s
        have hb : b = 0 := Nat.le_zero.mp hp0le
        subst hb
        exact hp0
      · exact Or.inr h1'

/-- The head of the queue is fresh: recording its depth, marking it visited
and pushing its not-yet-visited successors at depth `d + 1` preserves the
invariant. -/
lemma BfsInv.visit {edges : List Edge} {init s : String} {d : Nat}
    {rest : List (String × Nat)} {visited : List String}
    {depths : List (String × Nat)}
    (h : BfsInv edges init ((s, d) :: rest) visited depths)
    (hv : s ∉ visited) :
    BfsInv edges init
      (rest ++ ((edges.filter (fun e => e.fromState == s)).filter
          (fun e => !((s :: visited).contains e.toState))).map
        (fun e => (e.toState, d + 1)))
      (s :: visited) (depths ++ [(s, d)]) := by
  set pushes := ((edges.filter (fun e => e.fromState == s)).filter
      (fun e => !((s :: visited).contains e.toState))).map
    (fun e => (e.toState, d + 1)) with hpdef
  have hsd_reach : ReachN edges init d s :=
    h.queue_sound (s, d) (List.mem_cons_self _ _)
  have hskey : s ∉ depths.map Prod.fst := fun hk => hv ((h.vis_iff s).mpr hk)
  have hkeys : (depths ++ [(s, d)]).map Prod.fst =
      depths.map Prod.fst ++ [s] := by
    rw [List.map_append]; rfl
  have hpush_mem : ∀ p ∈ pushes, ∃ e ∈ edges, e.fromState = s ∧
      e.toState ∉ s :: visited ∧ p = (e.toState, d + 1) :=
    fun p hp => (mem_pushes_iff edges s d (s :: visited) p).mp (hpdef ▸ hp)
  have hpush_snd : ∀ p ∈ pushes, p.2 = d + 1 := by
    intro p hp
    obtain ⟨e, _, _, _, rfl⟩ := hpush_mem p hp
    rfl
  have hd_le_rest : ∀ q ∈ rest, d ≤ q.2 :=
    fun q hq => (List.pairwise_cons.mp h.queue_sorted).1 q hq
  have hrest_le : ∀ q ∈ rest, q.2 ≤ d + 1 :=
    fun q hq => h.queue_window q (List.mem_cons_of_mem _ hq) (s, d)
      (List.mem_cons_self _ _)
  refine ⟨?_, ?_, ?_, ?_, ?_, ?_, ?_, ?_, ?_, ?_, ?_⟩
  · -- vis_iff
    intro x
    rw [hkeys]
    simp only [List.mem_cons, List.mem_append, List.mem_singleton]
    rw [h.vis_iff x]
    tauto
  · -- keys_nodup
    rw [hkeys, List.nodup_append]
    refine ⟨h.keys_nodup, List.nodup_singleton s, ?_⟩
    intro a ha hb
    rw [List.mem_singleton] at hb
    subst hb
    exact hskey ha
  · -- depths_sound
    intro p hp
    rcases List.mem_append.mp hp with hp' | hp'
    · exact h.depths_sound p hp'
    · rw [List.mem_singleton] at hp'
      subst hp'
      exact hsd_reach
  · -- queue_sound
    intro p hp
    rcases List.mem_append.mp hp with hp' | hp'
    · exact h.queue_sound p (List.mem_cons_of_mem _ hp')
    · obtain ⟨e, he, hf, _, rfl⟩ := hpush_mem p hp'
      exact ReachN.succ hsd_reach he hf
  · -- closed
    intro p hp e he hf
    rcases List.mem_append.mp hp with hp' | hp'
    · rcases h.closed p hp' e he hf with ⟨q, hq, hq1, hq2⟩ | ⟨q, hq, hq1, hq2⟩
      · exact Or.inl ⟨q, List.mem_append_left _ hq, hq1, hq2⟩
      · rcases List.mem_cons.mp hq with rfl | hq'
        · exact Or.inl ⟨(s, d), List.mem_append_right _
            (List.mem_singleton_self _), hq1, hq2⟩
        · exact Or.inr ⟨q, List.mem_append_left _ hq', hq1, hq2⟩
    · rw [List.mem_singleton] at hp'
      subst hp'
      by_cases hvt : e.toState ∈ s :: visited
      · rcases List.mem_cons.mp hvt with hts | htv
        · exact Or.inl ⟨(s, d), List.mem_append_right _
            (List.mem_singleton_self _), hts.symm, by omega⟩
        · obtain ⟨p0, hp0, hp0s⟩ :=
            List.mem_map.mp ((h.vis_iff e.toState).mp htv)
          have hle : p0.2 ≤ d :=
            h.depths_le_queue p0 hp0 (s, d) (List.mem_cons_self _ _)
          exact Or.inl ⟨p0, List.mem_append_left _ hp0, hp0s, by omega⟩
      · refine Or.inr ⟨(e.toState, d + 1), List.mem_append_right _ ?_,
          rfl, le_refl _⟩
        rw [hpdef]
        exact (mem_pushes_iff _ _ _ _ _).mpr ⟨e, he, hf, hvt, rfl⟩
  · -- depths_le_queue
    intro p hp q hq
    rcases List.mem_append.mp hp with hp' | hp' <;>
      rcases List.mem_append.mp hq with hq' | hq'
    · exact h.depths_le_queue p hp' q (List.mem_cons_of_mem _ hq')
    · have h1 : p.2 ≤ d :=
        h.depths_le_queue p hp' (s, d) (List.mem_cons_self _ _)
      have h2 := hpush_snd q hq'
      omega
    · rw [List.mem_singleton] at hp'
      subst hp'
      exact hd_le_rest q hq'
    · rw [List.mem_singleton] at hp'
      subst hp'
      have h2 := hpush_snd q hq'
      omega
  · -- queue_sorted
    rw [List.pairwise_append]
    exact ⟨h.queue_sorted.of_cons, pairwise_of_const_snd (d + 1) pushes hpush_snd,
      fun a ha b hb => by
        have := hrest_le a ha
        have := hpush_snd b hb
        omega⟩
  · -- queue_window
    intro p hp q hq
    rcases List.mem_append.mp hp with hp' | hp' <;>
      rcases List.mem_append.mp hq with hq' | hq'
    · exact h.queue_window p (List.mem_cons_of_mem _ hp') q
        (List.mem_cons_of_mem _ hq')
    · have := hrest_le p hp'
      have := hpush_snd q hq'
      omega
    · have := hpush_snd p hp'
      have := hd_le_rest q hq'
      omega
    · have := hpush_snd p hp'
      have := hpush_snd q hq'
      omega
  · -- init_mem
    rcases h.init_mem with h1 | h1
    · exact Or.inl (List.mem_append_left _ h1)
    · rcases List.mem_cons.mp h1 with heq | h1'
      · left
        rw [heq]
        exact List.mem_append_right _ (List.mem_singleton_self _)
      · exact Or.inr (List.mem_append_left _ h1')
  · -- depths_scope
    intro p hp
    rcases List.mem_append.mp hp with hp' | hp'
    · exact h.depths_scope p hp'
    · rw [List.mem_singleton] at hp'
      subst hp'
      exact h.queue_scope (s, d) (List.mem_cons_self _ _)
  · -- queue_scope
    intro p hp
    rcases List.mem_append.mp hp with hp' | hp'
    · exact h.queue_scope p (List.mem_cons_of_mem _ hp')
    · obtain ⟨e, he, _, _, rfl⟩ := hpush_mem p hp'
      exact Or.inr (List.mem_map.mpr ⟨e, he, rfl⟩)

lemma bfsAux_nil (edges : List Edge) (fuel : Nat) (visited : List String)
    (depths : List (String × Nat)) :
    bfsAux edges fuel [] visited depths = depths := by
  cases fuel <;> rfl

lemma bfsAux_cons (edges : List Edge) (fuel : Nat) (s : String) (d : Nat)
    (rest : List (String × Nat)) (visited : List String)
    (depths : List (String × Nat)) :
    bfsAux edges (fuel + 1) ((s, d) :: rest) visited depths =
      if visited.contains s then
        bfsAux edges fuel rest visited depths
      else
        bfsAux edges fuel
          (rest ++ ((edges.filter (fun e => e.fromState == s)).filter
              (fun e => !((s :: visited).contains e.toState))).map
            (fun e => (e.toState, d + 1)))
          (s :: visited) (depths ++ [(s, d)]) := rfl

/-- Master run lemma: from any configuration satisfying the invariant, with
a step budget at least the measure, the loop drains its queue and the
recorded depth map satisfies `BfsPost`. -/
theorem bfsAux_post (edges : List Edge) (init : String) :
    ∀ (fuel : Nat) (queue : List (String × Nat)) (visited : List String)
      (depths : List (String × Nat)),
      bfsMeasure edges queue visited ≤ fuel →
      BfsInv edges init queue visited depths →
      BfsPost edges init (bfsAux edges fuel queue visited depths) := by
  intro fuel
  induction fuel with
  | zero =>
    intro queue visited depths hm hinv
    have hq : queue = [] := by
      have h1 : queue.length = 0 := by
        unfold bfsMeasure at hm; omega
      exact List.length_eq_zero.mp h1
    subst hq
    rw [bfsAux_nil]
    exact hinv.toPost
  | succ fuel ih =>
    intro queue visited depths hm hinv
    match queue with
    | [] =>
      rw [bfsAux_nil]
      exact hinv.toPost
    | (s, d) :: rest =>
      rw [bfsAux_cons]
      cases hc : visited.contains s with
      | true =>
        rw [if_pos rfl]
        have hlt := bfsMeasure_lt_skip edges s d rest visited
        exact ih rest visited depths (by omega)
          (hinv.skip ((contains_iff_mem _ _).mp hc))
      | false =>
        rw [if_neg Bool.false_ne_true]
        have hnv : s ∉ visited := (contains_eq_false_iff _ _).mp hc
        have hlt := bfsMeasure_lt_visit edges s d rest visited _
          (pushes_length_le edges s d (s :: visited))
          (pushes_scope edges s d (s :: visited)) hnv
        exact ih _ _ _ (by omega) (hinv.visit hnv)

/-- The invariant holds at the loop's initial configuration. -/
lemma bfsInv_initial (edges : List Edge) (init : String) :
    BfsInv edges init [(init, 0)] [] [] := by
  refine ⟨?_, ?_, ?_, ?_, ?_, ?_, ?_, ?_, ?_, ?_, ?_⟩
  · intro x; simp
  · simp
  · intro p hp; exact absurd hp (List.not_mem_nil _)
  · intro p hp
    rw [List.mem_singleton] at hp
    subst hp
    exact ReachN.zero
  · intro p hp; exact absurd hp (List.not_mem_nil _)
  · intro p hp; exact absurd hp (List.not_mem_nil _)
  · exact List.pairwise_singleton _ _
  · intro p hp q hq
    rw [List.mem_singleton] at hp hq
    subst hp; subst hq
    omega
  · exact Or.inr (List.mem_singleton_self _)
  · intro p hp; exact absurd hp (List.not_mem_nil _)
  · intro p hp
    rw [List.mem_singleton] at hp
    subst hp
    exact Or.inl rfl

/-- The BFS depth map of the layout pass satisfies `BfsPost`. -/
theorem bfsDepths_post (d : StateMachineDefinition) :
    BfsPost (edgeList d) d.initialState (bfsDepths d) :=
  bfsAux_post (edgeList d) d.initialState (bfsFuel d) [(d.initialState, 0)]
    [] [] (le_refl _) (bfsInv_initial (edgeList d) d.initialState)

/-- Fuel insensitivity: any budget at least the measure yields the same
result — the while loop terminates within `bfsMeasure` iterations. -/
theorem bfsAux_fuel_add (edges : List Edge) :
    ∀ (fuel : Nat) (queue : List (String × Nat)) (visited : List String)
      (depths : List (String × Nat)),
      bfsMeasure edges queue visited ≤ fuel → ∀ (k : Nat),
      bfsAux edges (fuel + k) queue visited depths =
        bfsAux edges fuel queue visited depths := by
  intro fuel
  induction fuel with
  | zero =>
    intro queue visited depths hm k
    have hq : queue = [] := by
      have h1 : queue.length = 0 := by
        unfold bfsMeasure at hm; omega
      exact List.length_eq_zero.mp h1
    subst hq
    rw [bfsAux_nil, bfsAux_nil]
  | succ fuel ih =>
    intro queue visited depths hm k
    match queue with
    | [] => rw [bfsAux_nil, bfsAux_nil]
    | (s, d) :: rest =>
      rw [show fuel + 1 + k = (fuel + k) + 1 from by omega,
        bfsAux_cons, bfsAux_cons]
      cases hc : visited.contains s with
      | true =>
        rw [if_pos rfl, if_pos rfl]
        have hlt := bfsMeasure_lt_skip edges s d rest visited
        exact ih rest visited depths (by omega) k
      | false =>
        rw [if_neg Bool.false_ne_true, if_neg Bool.false_ne_true]
        have hnv : s ∉ visited := (contains_eq_false_iff _ _).mp hc
        have hlt := bfsMeasure_lt_visit edges s d rest visited _
          (pushes_length_le edges s d (s :: visited))
          (pushes_scope edges s d (s :: visited)) hnv
        exact ih _ _ _ (by omega) k

/-! ## Consequences: BFS computes shortest-path depths -/

/-- Every state reachable in `n` hops is recorded with a depth ≤ `n`. -/
lemma BfsPost.reachable_mem {edges : List Edge} {init : String}
    {D : List (String × Nat)} (h : BfsPost edges init D) :
    ∀ {n : Nat} {s : String}, ReachN edges init n s →
      ∃ m, m ≤ n ∧ (s, m) ∈ D := by
  intro n s hr
  induction hr with
  | zero => exact ⟨0, le_refl 0, h.init_mem⟩
  | @succ n u e hr he hf ih =>
    obtain ⟨m, hm, hmem⟩ := ih
    obtain ⟨q, hq, hq1, hq2⟩ := h.closed (u, m) hmem e he hf
    refine ⟨q.2, by omega, ?_⟩
    have hqe : q = (e.toState, q.2) := by
      rw [← hq1]
    rw [← hqe]
    exact hq

lemma keys_nodup_mem_unique :
    ∀ {l : List (String × Nat)} {s : String} {m m' : Nat},
      (l.map Prod.fst).Nodup → (s, m) ∈ l → (s, m') ∈ l → m = m' := by
  intro l
  induction l with
  | nil => intro s m m' _ h1 _; exact absurd h1 (List.not_mem_nil _)
  | cons p rest ih =>
    intro s m m' hnd h1 h2
    rw [List.map_cons, List.nodup_cons] at hnd
    rcases List.mem_cons.mp h1 with he1 | h1' <;>
      rcases List.mem_cons.mp h2 with he2 | h2'
    · have := congrArg Prod.snd (he1.trans he2.symm)
      simpa using this
    · exfalso
      apply hnd.1
      have hps : p.1 = s := by rw [← he1]
      rw [hps]
      exact List.mem_map.mpr ⟨(s, m'), h2', rfl⟩
    · exfalso
      apply hnd.1
      have hps : p.1 = s := by rw [← he2]
      rw [hps]
      exact List.mem_map.mpr ⟨(s, m), h1', rfl⟩
    · exact ih hnd.2 h1' h2'

lemma mem_lookup_of_nodup :
    ∀ {l : List (String × Nat)} {s : String} {n : Nat},
      (l.map Prod.fst).Nodup → (s, n) ∈ l → l.lookup s = some n := by
  intro l
  induction l with
  | nil => intro s n _ h1; exact absurd h1 (List.not_mem_nil _)
  | cons p rest ih =>
    intro s n hnd h1
    rw [List.map_cons, List.nodup_cons] at hnd
    obtain ⟨a, b⟩ := p
    rcases List.mem_cons.mp h1 with he1 | h1'
    · have ha : s = a := congrArg Prod.fst he1
      have hb : n = b := congrArg Prod.snd he1
      subst ha; subst hb
      simp [List.lookup]
    · have hne : s ≠ a := by
        intro he
        apply hnd.1
        rw [he] at h1'
        exact List.mem_map.mpr ⟨(a, n), h1', rfl⟩
      have hbeq : (s == a) = false := beq_eq_false_iff_ne.mpr hne
      simp [List.lookup, hbeq]
      exact ih hnd.2 h1'

/-! ## The unvisited-fill pass -/

lemma foldl_preserves {α β : Type} (step : β → α → β) (P : β → Prop)
    (hstep : ∀ b a, P b → P (step b a)) :
    ∀ (l : List α) (b : β), P b → P (l.foldl step b) := by
  intro l
  induction l with
  | nil => intro b hb; exact hb
  | cons a rest ih =>
    intro b hb
    rw [List.foldl_cons]
    exact ih _ (hstep b a hb)

lemma fillDepths_mem_of_mem (ns : List String)
    (depths : List (String × Nat)) (p : String × Nat) (hp : p ∈ depths) :
    p ∈ fillDepths ns depths := by
  unfold fillDepths
  refine foldl_preserves _ (fun acc => p ∈ acc) ?_ ns depths hp
  intro acc a hacc
  by_cases hc : (acc.map Prod.fst).contains a = true
  · rw [if_pos hc]; exact hacc
  · rw [if_neg hc]; exact List.mem_append_left _ hacc

lemma fillDepths_keys_nodup (ns : List String)
    (depths : List (String × Nat)) (hnd : (depths.map Prod.fst).Nodup) :
    ((fillDepths ns depths).map Prod.fst).Nodup := by
  unfold fillDepths
  refine foldl_preserves _ (fun acc => (acc.map Prod.fst).Nodup) ?_ ns depths hnd
  intro acc a hacc
  by_cases hc : (acc.map Prod.fst).contains a = true
  · rw [if_pos hc]; exact hacc
  · rw [if_neg hc, List.map_append, List.nodup_append]
    refine ⟨hacc, List.nodup_singleton a, ?_⟩
    intro x hx hx2
    rw [show (List.map Prod.fst [(a, (acc.map Prod.snd).foldr max 0 + 1)]) =
      [a] from rfl, List.mem_singleton] at hx2
    subst hx2
    exact (contains_eq_false_iff _ _).mp (Bool.not_eq_true _ ▸ hc) hx

lemma fillDepths_keys_mono (ns : List String)
    (depths : List (String × Nat)) (x : String)
    (hx : x ∈ depths.map Prod.fst) :
    x ∈ (fillDepths ns depths).map Prod.fst := by
  unfold fillDepths
  refine foldl_preserves _ (fun acc => x ∈ acc.map Prod.fst) ?_ ns depths hx
  intro acc a hacc
  by_cases hc : (acc.map Prod.fst).contains a = true
  · rw [if_pos hc]; exact hacc
  · rw [if_neg hc, List.map_append]
    exact List.mem_append_left _ hacc

lemma fillDepths_covers :
    ∀ (ns : List String) (depths : List (String × Nat)) (x : String),
      x ∈ ns → x ∈ (fillDepths ns depths).map Prod.fst := by
  intro ns
  induction ns with
  | nil => intro _ x hx; exact absurd hx (List.not_mem_nil _)
  | cons n rest ih =>
    intro depths x hx
    have hstep : fillDepths (n :: rest) depths =
        fillDepths rest
          (if (depths.map Prod.fst).contains n then depths
           else depths ++ [(n, (depths.map Prod.snd).foldr max 0 + 1)]) := rfl
    rw [hstep]
    rcases List.mem_cons.mp hx with rfl | hx'
    · apply fillDepths_keys_mono
      by_cases hc : (depths.map Prod.fst).contains x = true
      · rw [if_pos hc]
        exact (contains_iff_mem _ _).mp hc
      · rw [if_neg hc, List.map_append]
        exact List.mem_append_right _ (List.mem_singleton_self _)
    · exact ih _ x hx'

lemma fillDepths_keys_subset :
    ∀ (ns : List String) (depths : List (String × Nat)) (x : String),
      x ∈ (fillDepths ns depths).map Prod.fst →
      x ∈ depths.map Prod.fst ∨ x ∈ ns := by
  intro ns
  induction ns with
  | nil => intro depths x hx; exact Or.inl hx
  | cons n rest ih =>
    intro depths x hx
    have hstep : fillDepths (n :: rest) depths =
        fillDepths rest
          (if (depths.map Prod.fst).contains n then depths
           else depths ++ [(n, (depths.map Prod.snd).foldr max 0 + 1)]) := rfl
    rw [hstep] at hx
    rcases ih _ x hx with hx' | hx'
    · by_cases hc : (depths.map Prod.fst).contains n = true
      · rw [if_pos hc] at hx'
        exact Or.inl hx'
      · rw [if_neg hc, List.map_append, List.mem_append] at hx'
        rcases hx' with hx'' | hx''
        · exact Or.inl hx''
        · rw [show (List.map Prod.fst
            [(n, (depths.map Prod.snd).foldr max 0 + 1)]) = [n] from rfl,
            List.mem_singleton] at hx''
          subst hx''
          exact Or.inr (List.mem_cons_self _ _)
    · exact Or.inr (List.mem_cons_of_mem _ hx')

lemma reachN_zero_eq {edges : List Edge} {init s : String}
    (h : ReachN edges init 0 s) : s = init := by
  cases h
  rfl

/-- Claim C1: for a definition whose `initialState` is a declared state, the
assigned depth of `initialState` is 0, and every reachable state's assigned
depth is the length of the shortest edge-hop path from `initialState` to it.
(Tie-breaking between equally short paths affects only the order inside a
depth column, never the depth value, which is what this claim constrains.) -/
theorem claim_C1_bfs_shortest_path_depths (d : StateMachineDefinition)
    (_hdecl : d.initialState ∈ stateNamesOf d) :
    (finalDepths d).lookup d.initialState = some 0 ∧
      ∀ (s : String) (n : Nat),
        ReachN (edgeList d) d.initialState n s →
        (∀ m, ReachN (edgeList d) d.initialState m s → n ≤ m) →
        (finalDepths d).lookup s = some n := by
  have hpost := bfsDepths_post d
  have hnd : ((finalDepths d).map Prod.fst).Nodup :=
    fillDepths_keys_nodup _ _ hpost.keys_nodup
  constructor
  · exact mem_lookup_of_nodup hnd
      (fillDepths_mem_of_mem _ _ _ hpost.init_mem)
  · intro s n hr hmin
    obtain ⟨m, hm, hmem⟩ := hpost.reachable_mem hr
    have hs : n ≤ m := hmin m (hpost.sound (s, m) hmem)
    have hmn : m = n := by omega
    subst hmn
    exact mem_lookup_of_nodup hnd (fillDepths_mem_of_mem _ _ _ hmem)

/-- Witness for C1 on the two-state chain: `A` at depth 0, `B` at its
shortest-path distance 1. -/
theorem claim_C1_bfs_shortest_path_depths_witness :
    (finalDepths chainAB).lookup "A" = some 0 ∧
      (finalDepths chainAB).lookup "B" = some 1 := by
  have h := claim_C1_bfs_shortest_path_depths chainAB (by decide)
  refine ⟨h.1, ?_⟩
  refine h.2 "B" 1 ?_ ?_
  · exact ReachN.succ (e := ⟨"A", "B", "go"⟩) ReachN.zero (by decide) rfl
  · intro m hm
    cases m with
    | zero => exact absurd (reachN_zero_eq hm) (by decide)
    | succ m' => omega

/-! ## What the fill pass actually assigns -/

lemma contains_append_singleton_ne {l : List String} {x n : String}
    (hne : x ≠ n) : (l ++ [n]).contains x = l.contains x := by
  cases hc : l.contains x
  · refine (contains_eq_false_iff _ _).mpr ?_
    rw [List.mem_append, List.mem_singleton]
    push_neg
    exact ⟨(contains_eq_false_iff _ _).mp hc, hne⟩
  · exact (contains_iff_mem _ _).mpr
      (List.mem_append_left _ ((contains_iff_mem _ _).mp hc))

lemma foldr_max_append (l : List Nat) (x : Nat) :
    (l ++ [x]).foldr max 0 = max (l.foldr max 0) x := by
  induction l with
  | nil => simp [max_comm]
  | cons a l ih =>
    simp only [List.cons_append, List.foldr_cons, ih]
    rw [← max_assoc]

/-- The fill pass appends, for the not-yet-assigned state names in
declaration order, entries with consecutive depths starting right above the
current maximum: each `set` raises the maximum by one, so later unvisited
states get strictly larger depths. -/
lemma fillDepths_spec :
    ∀ (ns : List String), ns.Nodup → ∀ (depths : List (String × Nat)),
      fillDepths ns depths =
        depths ++ numberFrom ((depths.map Prod.snd).foldr max 0 + 1)
          (ns.filter (fun x => !((depths.map Prod.fst).contains x))) := by
  intro ns
  induction ns with
  | nil => intro _ depths; simp [fillDepths, numberFrom]
  | cons n rest ih =>
    intro hnd depths
    have hn_rest : n ∉ rest := (List.nodup_cons.mp hnd).1
    have hrest : rest.Nodup := (List.nodup_cons.mp hnd).2
    have hstep : fillDepths (n :: rest) depths =
        fillDepths rest
          (if (depths.map Prod.fst).contains n then depths
           else depths ++ [(n, (depths.map Prod.snd).foldr max 0 + 1)]) := rfl
    rw [hstep]
    by_cases hc : (depths.map Prod.fst).contains n = true
    · rw [if_pos hc, ih hrest depths, List.filter_cons, hc]
      simp
    · have hc' : (depths.map Prod.fst).contains n = false :=
        Bool.not_eq_true _ ▸ Bool.of_not_eq_true hc
      rw [if_neg hc]
      set M := (depths.map Prod.snd).foldr max 0 with hM
      rw [ih hrest (depths ++ [(n, M + 1)])]
      have hvals : ((depths ++ [(n, M + 1)]).map Prod.snd).foldr max 0 =
          M + 1 := by
        rw [List.map_append]
        simp only [List.map_cons, List.map_nil]
        rw [foldr_max_append, ← hM]
        exact max_eq_right (by omega)
      have hkeys2 : (depths ++ [(n, M + 1)]).map Prod.fst =
          depths.map Prod.fst ++ [n] := by
        rw [List.map_append]; rfl
      have hfilter : rest.filter
          (fun x => !(((depths ++ [(n, M + 1)]).map Prod.fst).contains x)) =
          rest.filter (fun x => !((depths.map Prod.fst).contains x)) := by
        refine List.filter_congr ?_
        intro x hx
        rw [hkeys2, contains_append_singleton_ne
          (fun he => hn_rest (by rw [← he]; exact hx))]
      rw [hvals, hfilter, List.filter_cons, hc']
      simp only [Bool.not_false, if_true]
      rw [List.append_assoc]
      rfl

/-- Three declared states with no actions at all: only `A` (the initial
state) is reachable; `B` and `C` are unreachable. -/
def isolatedABC : StateMachineDefinition :=
  ⟨"A", [("A", ⟨none⟩), ("B", ⟨none⟩), ("C", ⟨none⟩)]⟩

/-- Counterexample to C3: in `isolatedABC` there are no edges, `B` and `C`
are both unreachable, yet they receive depths 1 and 2 — not the same depth.
The fill pass recomputes `Math.max(...depths.values()) + 1` after each
assignment, so each unvisited state raises the maximum for the next one. -/
theorem claim_C3_counterexample_distinct_unreachable_depths :
    edgeList isolatedABC = [] ∧
      (finalDepths isolatedABC).lookup "B" = some 1 ∧
      (finalDepths isolatedABC).lookup "C" = some 2 ∧
      (finalDepths isolatedABC).lookup "B" ≠
        (finalDepths isolatedABC).lookup "C" :=
  ⟨by decide, by decide, by decide, by decide⟩

/-- Claim C3 (amended): the states never visited by the BFS receive, in
declaration order, strictly increasing consecutive depths `M + 1`, `M + 2`,
… where `M` is the maximum BFS-assigned depth (the BFS depth map always
contains at least the seed entry — `initialState` at depth 0 — even when
`initialState` is not a declared state, so with an invalid initial state the
unreachable states get 1, 2, …, not 0). -/
theorem claim_C3_amended_unvisited_get_consecutive_depths
    (d : StateMachineDefinition) (hnd : (stateNamesOf d).Nodup) :
    finalDepths d =
      bfsDepths d ++
        numberFrom (((bfsDepths d).map Prod.snd).foldr max 0 + 1)
          ((stateNamesOf d).filter
            (fun s => !(((bfsDepths d).map Prod.fst).contains s))) :=
  fillDepths_spec (stateNamesOf d) hnd (bfsDepths d)

/-- Witness for the amended C3 at `isolatedABC`. -/
theorem claim_C3_amended_unvisited_get_consecutive_depths_witness :
    finalDepths isolatedABC =
      bfsDepths isolatedABC ++
        numberFrom (((bfsDepths isolatedABC).map Prod.snd).foldr max 0 + 1)
          ((stateNamesOf isolatedABC).filter
            (fun s => !(((bfsDepths isolatedABC).map Prod.fst).contains s))) :=
  claim_C3_amended_unvisited_get_consecutive_depths isolatedABC (by decide)

/-! ## Node positions: one node per depth-map entry -/

lemma numberFrom_length : ∀ (m : Nat) (l : List String),
    (numberFrom m l).length = l.length
  | _, [] => rfl
  | m, _ :: rest => by
    simp [numberFrom, numberFrom_length (m + 1) rest]

lemma columnNodes_map_state :
    ∀ (ms : List String) (dep len idx : Nat),
      (columnNodes dep len idx ms).map NodePosition.state = ms
  | [], _, _, _ => rfl
  | s :: rest, dep, len, idx => by
    simp [columnNodes, columnNodes_map_state rest dep len (idx + 1)]

lemma nodePositionsOf_eq_flatMap (d : StateMachineDefinition) :
    nodePositionsOf d =
      (depthGroupsOf (finalDepths d)).flatMap
        (fun g => columnNodes g.1 g.2.length 0 g.2) := by
  unfold nodePositionsOf
  rw [foldl_flatMap_of_step _ _ (fun acc g => rfl) _ []]
  rfl

lemma addToGroup_flatMap_perm :
    ∀ (acc : List (Nat × List String)) (dep : Nat) (s : String),
      ((addToGroup acc dep s).flatMap (fun g => g.2)).Perm
        (acc.flatMap (fun g => g.2) ++ [s])
  | [], dep, s => by simp [addToGroup]
  | (k, ms) :: rest, dep, s => by
    by_cases hk : k = dep
    · rw [addToGroup, if_pos hk]
      simp only [List.flatMap_cons, List.append_assoc]
      exact List.Perm.append_left ms
        (by exact (List.perm_append_comm).trans (List.Perm.refl _))
    · rw [addToGroup, if_neg hk]
      simp only [List.flatMap_cons, List.append_assoc]
      exact List.Perm.append_left ms (addToGroup_flatMap_perm rest dep s)

lemma depthGroups_foldl_flatMap_perm :
    ∀ (l : List (String × Nat)) (acc : List (Nat × List String)),
      ((l.foldl (fun acc p => addToGroup acc p.2 p.1) acc).flatMap
          (fun g => g.2)).Perm
        (acc.flatMap (fun g => g.2) ++ l.map Prod.fst) := by
  intro l
  induction l with
  | nil => intro acc; simp
  | cons p rest ih =>
    intro acc
    rw [List.foldl_cons]
    refine (ih (addToGroup acc p.2 p.1)).trans ?_
    rw [List.map_cons]
    have h1 : ((addToGroup acc p.2 p.1).flatMap (fun g => g.2) ++
        rest.map Prod.fst).Perm
        ((acc.flatMap (fun g => g.2) ++ [p.1]) ++ rest.map Prod.fst) :=
      (addToGroup_flatMap_perm acc p.2 p.1).append_right _
    have h2 : (acc.flatMap (fun g => g.2) ++ [p.1]) ++ rest.map Prod.fst =
        acc.flatMap (fun g => g.2) ++ (p.1 :: rest.map Prod.fst) := by
      rw [List.append_assoc]; rfl
    rw [h2] at h1
    exact h1

/-- The laid-out node states are a permutation of the depth-map keys: one
node is produced per depth entry. -/
lemma nodeStates_perm_finalKeys (d : StateMachineDefinition) :
    ((nodePositionsOf d).map NodePosition.state).Perm
      ((finalDepths d).map Prod.fst) := by
  rw [nodePositionsOf_eq_flatMap, List.map_flatMap]
  have hcols : (depthGroupsOf (finalDepths d)).flatMap
      (fun g => (columnNodes g.1 g.2.length 0 g.2).map NodePosition.state) =
      (depthGroupsOf (finalDepths d)).flatMap (fun g => g.2) := by
    congr 1
    funext g
    exact columnNodes_map_state g.2 g.1 g.2.length 0
  rw [hcols]
  have := depthGroups_foldl_flatMap_perm (finalDepths d) []
  simpa [depthGroupsOf] using this

/-- One declared state `A`, but `initialState` is the undeclared `"X"`. -/
def phantomX : StateMachineDefinition := ⟨"X", [("A", ⟨none⟩)]⟩

/-- Counterexample to C2: with the undeclared `initialState` `"X"` the
layout produces 2 nodes for 1 declared state.  The BFS seeds its queue with
`initialState` unconditionally, records a depth entry for `"X"`, and the
node-position pass emits one node per depth entry — a phantom node. -/
theorem claim_C2_counterexample_phantom_node :
    phantomX.states.length = 1 ∧
      (nodePositionsOf phantomX).length = 2 ∧
      ¬((nodePositionsOf phantomX).length = phantomX.states.length) :=
  ⟨by decide, by decide, by decide⟩

lemma bfsKeys_scope (d : StateMachineDefinition) :
    ∀ x ∈ (bfsDepths d).map Prod.fst,
      x = d.initialState ∨ x ∈ stateNamesOf d := by
  intro x hx
  obtain ⟨p, hp, rfl⟩ := List.mem_map.mp hx
  rcases (bfsDepths_post d).scope p hp with h | h
  · exact Or.inl h
  · obtain ⟨e, he, hte⟩ := List.mem_map.mp h
    rw [← hte]
    exact Or.inr (edgeList_endpoints_mem d e he).2

/-- Claim C2 (amended): exactly one node is produced per key of the final
depth map, which consists of the declared states plus — when `initialState`
is not a declared state — one phantom entry for `initialState` itself.  So
the node count is `|states|` when `initialState` is declared and
`|states| + 1` otherwise. -/
theorem claim_C2_amended_node_count_with_phantom (d : StateMachineDefinition)
    (hnd : (stateNamesOf d).Nodup) :
    (nodePositionsOf d).length =
        d.states.length +
          (if (stateNamesOf d).contains d.initialState then 0 else 1) ∧
      ((nodePositionsOf d).map NodePosition.state).Nodup ∧
      (∀ s ∈ stateNamesOf d, ∃ p ∈ nodePositionsOf d, p.state = s) ∧
      (∀ p ∈ nodePositionsOf d,
        p.state ∈ stateNamesOf d ∨ p.state = d.initialState) := by
  have hpost := bfsDepths_post d
  have hperm := nodeStates_perm_finalKeys d
  have hfnd : ((finalDepths d).map Prod.fst).Nodup :=
    fillDepths_keys_nodup _ _ hpost.keys_nodup
  have hinitK : d.initialState ∈ (bfsDepths d).map Prod.fst :=
    List.mem_map.mpr ⟨(d.initialState, 0), hpost.init_mem, rfl⟩
  refine ⟨?_, (hperm.nodup_iff).mpr hfnd, ?_, ?_⟩
  · have hlen1 : (nodePositionsOf d).length = (finalDepths d).length := by
      have h := hperm.length_eq
      rwa [List.length_map, List.length_map] at h
    rw [hlen1, finalDepths, fillDepths_spec _ hnd, List.length_append,
      numberFrom_length]
    have hstates : d.states.length = (stateNamesOf d).length :=
      (List.length_map _ _).symm
    rw [hstates]
    set ns := stateNamesOf d with hns
    set K := (bfsDepths d).map Prod.fst with hK
    have hKnd : K.Nodup := hpost.keys_nodup
    have hKcard : K.length = K.toFinset.card :=
      (List.toFinset_card_of_nodup hKnd).symm
    have hNcard : ns.length = ns.toFinset.card :=
      (List.toFinset_card_of_nodup hnd).symm
    have hBlen : (bfsDepths d).length = K.length := (List.length_map _ _).symm
    have hMnd : (ns.filter (fun s => !(K.contains s))).Nodup := hnd.filter _
    have hMcard : (ns.filter (fun s => !(K.contains s))).length =
        (ns.filter (fun s => !(K.contains s))).toFinset.card :=
      (List.toFinset_card_of_nodup hMnd).symm
    have hMeq : (ns.filter (fun s => !(K.contains s))).toFinset =
        ns.toFinset \ K.toFinset := by
      ext x
      simp only [List.mem_toFinset, Finset.mem_sdiff, List.mem_filter,
        Bool.not_eq_true']
      rw [contains_eq_false_iff]
    have hinitF : d.initialState ∈ K.toFinset := List.mem_toFinset.mpr hinitK
    have hKpos : 1 ≤ K.toFinset.card := Finset.card_pos.mpr ⟨_, hinitF⟩
    by_cases hc : ns.contains d.initialState = true
    · have hinitns : d.initialState ∈ ns := (contains_iff_mem _ _).mp hc
      have hsub : K.toFinset ⊆ ns.toFinset := by
        intro x hx
        rw [List.mem_toFinset] at hx ⊢
        rcases bfsKeys_scope d x hx with rfl | h
        · exact hinitns
        · exact h
      have hsd := Finset.card_sdiff hsub
      have hle := Finset.card_le_card hsub
      rw [if_pos hc, hBlen, hMcard, hMeq]
      omega
    · have hinitns : d.initialState ∉ ns :=
        (contains_eq_false_iff _ _).mp (Bool.not_eq_true _ ▸ Bool.of_not_eq_true hc)
      have hsub : K.toFinset.erase d.initialState ⊆ ns.toFinset := by
        intro x hx
        obtain ⟨hxne, hxK⟩ := Finset.mem_erase.mp hx
        rw [List.mem_toFinset] at hxK ⊢
        rcases bfsKeys_scope d x hxK with rfl | h
        · exact absurd rfl hxne
        · exact h
      have herase : (K.toFinset.erase d.initialState).card =
          K.toFinset.card - 1 := Finset.card_erase_of_mem hinitF
      have hsd2 : ns.toFinset \ K.toFinset =
          ns.toFinset \ K.toFinset.erase d.initialState := by
        ext x
        simp only [Finset.mem_sdiff, Finset.mem_erase]
        constructor
        · rintro ⟨hx1, hx2⟩
          exact ⟨hx1, fun hand => hx2 hand.2⟩
        · rintro ⟨hx1, hx2⟩
          refine ⟨hx1, fun hxK => hx2 ⟨?_, hxK⟩⟩
          intro he
          rw [he] at hx1
          exact hinitns (List.mem_toFinset.mp hx1)
      have hsd := Finset.card_sdiff hsub
      have hle := Finset.card_le_card hsub
      rw [if_neg hc, hBlen, hMcard, hMeq, hsd2]
      omega
  · intro s hs
    have h1 : s ∈ (finalDepths d).map Prod.fst := by
      rw [finalDepths]
      exact fillDepths_covers _ _ _ hs
    obtain ⟨p, hp, hps⟩ := List.mem_map.mp (hperm.mem_iff.mpr h1)
    exact ⟨p, hp, hps⟩
  · intro p hp
    have h1 : p.state ∈ (finalDepths d).map Prod.fst :=
      hperm.mem_iff.mp (List.mem_map.mpr ⟨p, hp, rfl⟩)
    rw [finalDepths] at h1
    rcases fillDepths_keys_subset _ _ _ h1 with h2 | h2
    · rcases bfsKeys_scope d _ h2 with h3 | h3
      · exact Or.inr h3
      · exact Or.inl h3
    · exact Or.inl h2

/-- Witness for the amended C2 at `phantomX`: 1 declared state, undeclared
initial state, hence 2 nodes. -/
theorem claim_C2_amended_node_count_with_phantom_witness :
    (nodePositionsOf phantomX).length =
      phantomX.states.length +
        (if (stateNamesOf phantomX).contains phantomX.initialState
         then 0 else 1) :=
  (claim_C2_amended_node_count_with_phantom phantomX (by decide)).1

/-- Claim C4: the layout pass is a total function of the definition — it is
defined for every structurally well-typed input (absent `initialState` keys,
empty or cycle-bearing `states`, absent `actions`), its BFS loop terminates
within the `bfsMeasure` step budget (adding any extra budget changes
nothing), and it always yields a usable diagram: a node for every declared
state, both endpoints of every emitted edge laid out, and the minimum
canvas floors respected. -/
theorem claim_C4_layout_total_and_valid (d : StateMachineDefinition) :
    (∀ s ∈ stateNamesOf d, ∃ p ∈ (layout d).nodes, p.state = s) ∧
      (∀ e ∈ (layout d).edges,
        (∃ p ∈ (layout d).nodes, p.state = e.fromState) ∧
          (∃ q ∈ (layout d).nodes, q.state = e.toState)) ∧
      400 ≤ (layout d).width ∧ 300 ≤ (layout d).height ∧
      (∀ k, bfsAux (edgeList d) (bfsFuel d + k) [(d.initialState, 0)] [] [] =
        bfsDepths d) := by
  have hperm := nodeStates_perm_finalKeys d
  have hcov : ∀ s ∈ stateNamesOf d, ∃ p ∈ nodePositionsOf d, p.state = s := by
    intro s hs
    have h1 : s ∈ (finalDepths d).map Prod.fst := by
      rw [finalDepths]
      exact fillDepths_covers _ _ _ hs
    obtain ⟨p, hp, hps⟩ := List.mem_map.mp (hperm.mem_iff.mpr h1)
    exact ⟨p, hp, hps⟩
  refine ⟨hcov, ?_, le_max_left _ _, le_max_left _ _, ?_⟩
  · intro e he
    obtain ⟨hf, ht⟩ := edgeList_endpoints_mem d e he
    exact ⟨hcov _ hf, hcov _ ht⟩
  · intro k
    exact bfsAux_fuel_add (edgeList d) (bfsFuel d) _ _ _ (le_refl _) k

/-- Witness for C4 at `phantomX` (tolerated undeclared initial state). -/
theorem claim_C4_layout_total_and_valid_witness :
    (∃ p ∈ (layout phantomX).nodes, p.state = "A") ∧
      400 ≤ (layout phantomX).width :=
  ⟨(claim_C4_layout_total_and_valid phantomX).1 "A" (by decide),
    (claim_C4_layout_total_and_valid phantomX).2.2.1⟩

/-! ## Column coordinates -/

/-- Closed form of the column `y` formula (exact over `ℚ`). -/
lemma colY_eq (len i : Nat) :
    colY len i = 250 + 130 * (i : ℚ) - 65 * (len : ℚ) := by
  unfold colY nodeHeight verticalGap
  ring

lemma foldr_max_ge : ∀ (l : List Nat) (x : Nat), x ∈ l → x ≤ l.foldr max 0 := by
  intro l
  induction l with
  | nil => intro x hx; exact absurd hx (List.not_mem_nil _)
  | cons a t ih =>
    intro x hx
    rw [List.foldr_cons]
    rcases List.mem_cons.mp hx with rfl | hx'
    · exact le_max_left _ _
    · exact le_trans (ih x hx') (le_max_right _ _)

/-- The `j`-th member of a column is laid out at `x = 80 + depth × 180` and
`y = colY len (idx + j)`. -/
lemma columnNodes_get :
    ∀ (ms : List String) (dep len idx j : Nat) (hj : j < ms.length),
      (⟨ms.get ⟨j, hj⟩, 80 + (dep : ℚ) * horizontalGap,
        colY len (idx + j)⟩ : NodePosition) ∈ columnNodes dep len idx ms := by
  intro ms
  induction ms with
  | nil => intro dep len idx j hj; exact absurd hj (by simp)
  | cons s rest ih =>
    intro dep len idx j hj
    cases j with
    | zero => exact List.mem_cons_self _ _
    | succ j2 =>
      have hj2 : j2 < rest.length := by simpa using hj
      have hmem := ih dep len (idx + 1) j2 hj2
      rw [show idx + 1 + j2 = idx + (j2 + 1) from by omega] at hmem
      exact List.mem_cons_of_mem _ hmem

/-- The fan `A → B, C, D, E`: the depth-1 column has four members. -/
def fanABCDE : StateMachineDefinition :=
  ⟨"A", [("A", ⟨some [⟨"e1", "B"⟩, ⟨"e2", "C"⟩, ⟨"e3", "D"⟩, ⟨"e4", "E"⟩]⟩),
         ("B", ⟨none⟩), ("C", ⟨none⟩), ("D", ⟨none⟩), ("E", ⟨none⟩)]⟩

/-- Counterexample to C8: in `fanABCDE` the node `B` of the four-member
depth-1 column is laid out at `y = −10 < 0`, above the canvas (whose
computed height is 620) — columns are centered on a fixed 300-unit band,
not on the extent of the largest column. -/
theorem claim_C8_counterexample_node_above_canvas :
    (⟨"B", 260, -10⟩ : NodePosition) ∈ nodePositionsOf fanABCDE ∧
      (layout fanABCDE).height = 620 ∧
      ¬((0 : ℚ) ≤ (⟨"B", (260 : ℚ), -10⟩ : NodePosition).y) := by
  refine ⟨?_, ?_, by norm_num⟩
  · have h : depthGroupsOf (finalDepths fanABCDE) =
        [(0, ["A"]), (1, ["B", "C", "D", "E"])] := by decide
    simp only [nodePositionsOf, h, List.foldl, columnNodes, colY, nodeHeight,
      verticalGap, horizontalGap]
    norm_num
  · have h : maxColLenOf fanABCDE = 4 := by decide
    simp only [layout, svgHeight, h, nodeHeight, verticalGap]
    norm_num

/-- Claim C8 (amended): within each depth column nodes are evenly spaced —
consecutive vertical positions differ by the fixed `nodeHeight +
verticalGap` — and successive columns sit at fixed horizontal spacing
`x = 80 + depth × 180`; every column is centered on the same fixed vertical
band (the first and last node tops of any column sum to the constant 370,
independent of the largest column); each node's bottom edge stays within the
computed canvas height, but a node's top `y`-coordinate is negative — above
the canvas — whenever its column has 4 or more members, because the
centering uses a fixed 300-unit reference rather than the tallest column. -/
theorem claim_C8_amended_even_spacing_fixed_band (d : StateMachineDefinition) :
    (∀ g ∈ depthGroupsOf (finalDepths d), ∀ (j : Nat) (hj : j < g.2.length),
      (⟨g.2.get ⟨j, hj⟩, 80 + (g.1 : ℚ) * horizontalGap,
          colY g.2.length j⟩ : NodePosition) ∈ nodePositionsOf d ∧
        colY g.2.length j + nodeHeight ≤ (layout d).height) ∧
      (∀ len i : Nat,
        colY len (i + 1) = colY len i + (nodeHeight + verticalGap)) ∧
      (∀ len : Nat, 1 ≤ len → colY len 0 + colY len (len - 1) = 370) ∧
      (∀ len : Nat, 4 ≤ len → colY len 0 < 0) := by
  refine ⟨?_, ?_, ?_, ?_⟩
  · intro g hg j hj
    constructor
    · rw [nodePositionsOf_eq_flatMap]
      refine List.mem_flatMap.mpr ⟨g, hg, ?_⟩
      have hmem := columnNodes_get g.2 g.1 g.2.length 0 j hj
      rw [show 0 + j = j from by omega] at hmem
      exact hmem
    · have hmax : g.2.length ≤ maxColLenOf d :=
        foldr_max_ge _ _ (List.mem_map.mpr ⟨g, hg, rfl⟩)
      have hlh : (layout d).height =
          max 300 ((maxColLenOf d : ℚ) * (nodeHeight + verticalGap) + 100) :=
        rfl
      have hh1 : ((maxColLenOf d : ℚ) * (nodeHeight + verticalGap) + 100) ≤
          (layout d).height := by
        rw [hlh]; exact le_max_right _ _
      have hh2 : (300 : ℚ) ≤ (layout d).height := by
        rw [hlh]; exact le_max_left _ _
      have hlen1 : 1 ≤ g.2.length := by omega
      rcases Nat.lt_or_ge g.2.length 2 with hsmall | hbig
      · have hl : g.2.length = 1 := by omega
        have hj0 : j = 0 := by omega
        subst hj0
        rw [hl, colY_eq, nodeHeight]
        push_cast
        linarith
      · have hcast : (2 : ℚ) ≤ (g.2.length : ℚ) := by exact_mod_cast hbig
        have hjcast : (j : ℚ) ≤ (g.2.length : ℚ) - 1 := by
          have hjn : (j : ℚ) + 1 ≤ (g.2.length : ℚ) := by
            exact_mod_cast hj
          linarith
        have hmaxc : (g.2.length : ℚ) ≤ (maxColLenOf d : ℚ) := by
          exact_mod_cast hmax
        rw [colY_eq, nodeHeight]
        rw [nodeHeight, verticalGap] at hh1
        linarith
  · intro len i
    rw [colY_eq, colY_eq, nodeHeight, verticalGap]
    push_cast
    ring
  · intro len hlen
    have hc : ((len - 1 : ℕ) : ℚ) = (len : ℚ) - 1 := by
      rw [Nat.cast_sub hlen]
      norm_num
    rw [colY_eq, colY_eq, hc]
    push_cast
    ring
  · intro len hlen
    have hc : (4 : ℚ) ≤ (len : ℚ) := by exact_mod_cast hlen
    rw [colY_eq]
    push_cast
    linarith

/-- Witness for the amended C8 at the four-member column of `fanABCDE`. -/
theorem claim_C8_amended_even_spacing_fixed_band_witness :
    ((⟨["B", "C", "D", "E"].get ⟨0, by norm_num⟩,
        80 + ((1 : ℕ) : ℚ) * horizontalGap,
        colY (["B", "C", "D", "E"] : List String).length 0⟩ : NodePosition) ∈
        nodePositionsOf fanABCDE ∧
      colY (["B", "C", "D", "E"] : List String).length 0 + nodeHeight ≤
        (layout fanABCDE).height) ∧
      colY 4 0 < 0 :=
  ⟨(claim_C8_amended_even_spacing_fixed_band fanABCDE).1
      (1, ["B", "C", "D", "E"]) (by decide) 0 (by norm_num),
    (claim_C8_amended_even_spacing_fixed_band fanABCDE).2.2.2 4 (by norm_num)⟩

end OttoExplorer
